import Mathlib

/-!
Verification development for the clever-dev-docs spider/chunker.

Text is modelled as `List Char` (named `Str`). The definitions below are
shallow embeddings of the TypeScript sources: `src/spider/config.ts`
(constants), `src/spider/chunk.ts` (the chunker) and `src/spider/crawl.ts`
(the crawler). Whitespace predicates model the ASCII fragment of the
JavaScript `\s` character class and `String.trim`.
-/

set_option autoImplicit false

abbrev Str := List Char

/-- Helper to write `Str` literals. -/
def str (s : String) : Str := s.toList

/-- ASCII fragment of the JavaScript whitespace class used by `\s` and `trim`. -/
def isWs (c : Char) : Bool :=
  c = ' ' ∨ c = '\t' ∨ c = '\n' ∨ c = '\r' ∨ c = '\x0b' ∨ c = '\x0c'

/-- A character matched by the JavaScript regex `.` (anything but a line
terminator; within a single line only `\r` can occur besides `\n`). -/
def isDot (c : Char) : Bool := ¬ (c = '\n' ∨ c = '\r')

/-- `String.prototype.trim`: drop leading and trailing whitespace. -/
def trimStr (s : Str) : Str :=
  ((s.dropWhile isWs).reverse.dropWhile isWs).reverse

/-- Whitespace normalization used to state the reconstruction law: keep
only non-whitespace characters (verification helper). -/
def nws (s : Str) : Str := s.filter (fun c => !(isWs c))

/-- config.ts: `MAX_CHUNK_TOKENS`. -/
def MAX_CHUNK_TOKENS : Nat := 1500

/-- config.ts: `MIN_CHUNK_TOKENS`. -/
def MIN_CHUNK_TOKENS : Nat := 100

/-- chunk.ts `estimateTokens`: `Math.ceil(text.length / 4)`. -/
def estimateTokens (text : Str) : Nat := (text.length + 3) / 4

/-- `text.split(c)` for a single-character separator (JavaScript
`String.prototype.split`); the result is always nonempty. -/
def splitOnCh (sep : Char) : Str → List Str
  | [] => [[]]
  | c :: rest =>
    if c = sep then [] :: splitOnCh sep rest
    else
      match splitOnCh sep rest with
      | [] => [[c]]
      | s :: ss => (c :: s) :: ss

/-- `lines.join("\n")`. -/
def joinLines : List Str → Str
  | [] => []
  | [l] => l
  | l :: ls => l ++ '\n' :: joinLines ls

/-- chunk.ts `slugify`, the run-collapsing part of
`replace(/[^a-z0-9]+/g, "-")`: the flag records whether the previous
character was part of a non-slug run already replaced by a hyphen. -/
def collapseAux : Bool → Str → Str
  | _, [] => []
  | inRun, c :: rest =>
    if ('a' ≤ c ∧ c ≤ 'z') ∨ ('0' ≤ c ∧ c ≤ '9') then
      c :: collapseAux false rest
    else if inRun then collapseAux true rest
    else '-' :: collapseAux true rest

/-- One application of the regex alternative `^-` of `replace(/^-|-$/g, "")`. -/
def dropLeadingDash : Str → Str
  | '-' :: r => r
  | s => s

/-- chunk.ts `slugify`. -/
def slugify (text : Str) : Str :=
  let c := collapseAux false (text.map Char.toLower)
  (dropLeadingDash (dropLeadingDash c).reverse).reverse

/-- chunk.ts interface `Section`. -/
structure Section where
  heading : Str
  headingLevel : Nat
  content : Str
deriving DecidableEq, Repr

/-- The JavaScript regex match `line.match(/^(#{1,6})\s+(.+)$/)`, returning
the heading level and the raw capture `match[2]`.  `#{1,6}` takes the full
run of `#` (backtracking cannot help since `\s` never matches `#`), `\s+`
greedily takes the whitespace run; if nothing is left for `.+`, the engine
gives back the run's last whitespace character provided `.` can match it. -/
def matchHeading (line : Str) : Option (Nat × Str) :=
  let k := (line.takeWhile (fun c => c = '#')).length
  let rest := line.dropWhile (fun c => c = '#')
  if 1 ≤ k ∧ k ≤ 6 then
    let w := rest.takeWhile isWs
    let b := rest.dropWhile isWs
    if w = [] then none
    else if b ≠ [] then
      if b.all isDot then some (k, b) else none
    else if 2 ≤ w.length ∧ isDot (w.getLastD ' ') then some (k, [w.getLastD ' '])
    else none
  else none

/-- The loop body of chunk.ts `splitByHeadings`, with the accumulated state
(current heading, level, pending lines) made explicit. -/
def splitGo (curHeading : Str) (curLevel : Nat) (curLines : List Str) :
    List Str → List Section
  | [] =>
    if curLines ≠ [] then [⟨curHeading, curLevel, trimStr (joinLines curLines)⟩]
    else []
  | line :: rest =>
    match matchHeading line with
    | some (k, body) =>
      (if curLines ≠ [] then [⟨curHeading, curLevel, trimStr (joinLines curLines)⟩]
       else []) ++ splitGo (trimStr body) k [line] rest
    | none => splitGo curHeading curLevel (curLines ++ [line]) rest

/-- chunk.ts `splitByHeadings`. -/
def splitByHeadings (markdown : Str) : List Section :=
  splitGo [] 0 [] (splitOnCh '\n' markdown)

/-- The loop body of chunk.ts `mergeSections`: absorb a small section into
the last output section (`merged[merged.length - 1].content += "\n\n" + ...`)
when the size check passes, else push it. -/
def mergeStep (merged : List Section) (s : Section) : List Section :=
  let tokens := estimateTokens s.content
  match merged.getLast? with
  | some prev =>
    if tokens < MIN_CHUNK_TOKENS ∧
        estimateTokens prev.content + tokens < MAX_CHUNK_TOKENS then
      merged.dropLast ++
        [{ prev with content := prev.content ++ '\n' :: '\n' :: s.content }]
    else merged ++ [s]
  | none => merged ++ [s]

/-- chunk.ts `mergeSections`. -/
def mergeSections (sections : List Section) : List Section :=
  sections.foldl mergeStep []

/-- `content.split(/\n\n+/)`: split at maximal runs of two or more newlines. -/
def splitParas : Str → List Str
  | [] => [[]]
  | [c] => [[c]]
  | c :: d :: rest =>
    if c = '\n' ∧ d = '\n' then
      [] :: splitParas (rest.dropWhile (fun e => e = '\n'))
    else
      match splitParas (d :: rest) with
      | [] => [[c]]
      | p :: ps => (c :: p) :: ps
termination_by s => s.length
decreasing_by
  · simp only [List.length_cons]
    have := (List.dropWhile_sublist (l := rest) (fun e => e = '\n')).length_le
    omega
  · simp

/-- `paragraphs.join("\n\n")`. -/
def joinParas : List Str → Str
  | [] => []
  | [p] => p
  | p :: ps => p ++ '\n' :: '\n' :: joinParas ps

/-- The loop body of chunk.ts `splitLargeSection`: state is
(finished groups, current group, current token sum). -/
def packStep (st : List (List Str) × List Str × Nat) (para : Str) :
    List (List Str) × List Str × Nat :=
  let pt := estimateTokens para
  if MAX_CHUNK_TOKENS < st.2.2 + pt ∧ st.2.1 ≠ [] then
    (st.1 ++ [st.2.1], [para], pt)
  else
    (st.1, st.2.1 ++ [para], st.2.2 + pt)

/-- Greedy packing of paragraphs into groups, as in chunk.ts
`splitLargeSection` (the final flush included). -/
def packParas (paras : List Str) : List (List Str) :=
  let st := paras.foldl packStep ([], [], 0)
  if st.2.1 ≠ [] then st.1 ++ [st.2.1] else st.1

/-- chunk.ts `splitLargeSection`. -/
def splitLargeSection (s : Section) : List Section :=
  if estimateTokens s.content ≤ MAX_CHUNK_TOKENS then [s]
  else
    (packParas (splitParas s.content)).map
      (fun g => ⟨s.heading, s.headingLevel, joinParas g⟩)

/-- chunk.ts `buildHeadingHierarchy`: pop while the top of the stack has
level `≥` the section's level.  The stack is kept top-first. -/
def popGE : List (Str × Nat) → Nat → List (Str × Nat)
  | [], _ => []
  | (h, l) :: rest, lvl => if lvl ≤ l then popGE rest lvl else (h, l) :: rest

/-- The walk of chunk.ts `buildHeadingHierarchy` (stack top-first; the
emitted trail lists the stack from root to nearest). -/
def hierGo (pageTitle : Str) (stack : List (Str × Nat)) :
    List Section → List (List Str)
  | [] => []
  | sec :: rest =>
    let stack1 := popGE stack sec.headingLevel
    let stack2 :=
      if sec.heading ≠ [] then (sec.heading, sec.headingLevel) :: stack1
      else stack1
    (pageTitle :: (stack2.reverse.map Prod.fst)) :: hierGo pageTitle stack2 rest

/-- chunk.ts `buildHeadingHierarchy`. -/
def buildHeadingHierarchy (sections : List Section) (pageTitle : Str) :
    List (List Str) :=
  hierGo pageTitle [] sections

/-- crawl.ts / part_000 `fetchMethod` values. -/
inductive FetchMethod where
  | static
  | playwright
deriving DecidableEq, Repr

/-- crawl.ts interface `CrawlResult` (with the `fetchMethod` tag of the
part_000 variant; chunk.ts never reads it). -/
structure CrawlResult where
  url : Str
  path : Str
  «section» : Str
  title : Str
  description : Str
  markdown : Str
  discoveredPaths : List Str
  crawledAt : Str
  fetchMethod : FetchMethod
deriving DecidableEq, Repr

/-- chunk.ts interface `DocChunk`. -/
structure DocChunk where
  id : Str
  url : Str
  path : Str
  «section» : Str
  title : Str
  heading : Str
  headingLevel : Nat
  parentHeadings : List Str
  content : Str
  tokenEstimate : Nat
  crawledAt : Str
  chunkIndex : Nat
  totalChunks : Nat
deriving DecidableEq, Repr

/-- The decimal digit characters produced by JavaScript `String(n)`. -/
def digitChar : Nat → Char
  | 0 => '0' | 1 => '1' | 2 => '2' | 3 => '3' | 4 => '4'
  | 5 => '5' | 6 => '6' | 7 => '7' | 8 => '8' | 9 => '9'
  | _ => '*'

/-- JavaScript `String(n)`, digit extraction with structural fuel
(`fuel > n` suffices since `n / 10 < n`). -/
def natToDecAux : Nat → Nat → Str
  | 0, _ => []
  | fuel + 1, n =>
    if n < 10 then [digitChar n]
    else natToDecAux fuel (n / 10) ++ [digitChar (n % 10)]

/-- JavaScript `String(n)` for a natural number. -/
def natToDec (n : Nat) : Str := natToDecAux (n + 1) n

/-- `s.padStart(2, "0")`. -/
def pad2 (s : Str) : Str :=
  if 2 ≤ s.length then s else List.replicate (2 - s.length) '0' ++ s

/-- `array.map((x, i) => f(i, x))` with explicit start index. -/
def mapWithIdx {α β : Type} (f : Nat → α → β) : Nat → List α → List β
  | _, [] => []
  | n, a :: as => f n a :: mapWithIdx f (n + 1) as

/-- chunk.ts: `page.title || page.path.split("/").pop() || "unknown"`. -/
def titleOrFallback (page : CrawlResult) : Str :=
  if page.title ≠ [] then page.title
  else
    match (splitOnCh '/' page.path).getLast? with
    | some seg => if seg ≠ [] then seg else str "unknown"
    | none => str "unknown"

/-- chunk.ts `chunkPage`, the section pipeline:
split -> merge small -> split large. -/
def pageSections (page : CrawlResult) : List Section :=
  ((mergeSections (splitByHeadings page.markdown)).map splitLargeSection).flatten

/-- chunk.ts `chunkPage`, the chunk record built for section `sec` at
position `i` (the `sections.map((section, i) => ...)` body). -/
def mkChunk (page : CrawlResult) (i : Nat) (sec : Section) : DocChunk :=
  { id := slugify (titleOrFallback page) ++ '-' :: pad2 (natToDec i)
    url := page.url
    path := page.path
    «section» := page.«section»
    title := page.title
    heading := if sec.heading ≠ [] then sec.heading else page.title
    headingLevel := sec.headingLevel
    parentHeadings :=
      ((buildHeadingHierarchy (pageSections page) page.title).get? i).getD
        [page.title]
    content := sec.content
    tokenEstimate := estimateTokens sec.content
    crawledAt := page.crawledAt
    chunkIndex := i
    totalChunks := (pageSections page).length }

/-- chunk.ts `chunkPage`. -/
def chunkPage (page : CrawlResult) : List DocChunk :=
  if trimStr page.markdown = [] then []
  else mapWithIdx (mkChunk page) 0 (pageSections page)

/-- chunk.ts `chunkAll`. -/
def chunkAll (pages : List CrawlResult) : List DocChunk :=
  (pages.map chunkPage).flatten

/-- part_000 / crawl.ts: the `/docs/` link filter of the discovery loop. -/
def docsLinkStr : Str := str "/docs/"

/-- part_000 `extractFromHtml` (and crawl.ts `crawlPage`), body of the
link-discovery loop: keep a same-site doc path (`href.startsWith("/docs/")`),
drop fragments (`!href.includes("#")`), strip the query string
(`href.split("?")[0]`), deduplicate. -/
def discoverStep (discovered : List Str) (href : Str) : List Str :=
  if docsLinkStr.isPrefixOf href ∧ '#' ∉ href then
    if href.takeWhile (fun c => ¬ c = '?') ∈ discovered then discovered
    else discovered ++ [href.takeWhile (fun c => ¬ c = '?')]
  else discovered

/-- part_000 `extractFromHtml` link discovery over the `href` attribute
values found in the original markup. -/
def discoverPaths (hrefs : List Str) : List Str :=
  hrefs.foldl discoverStep []

/-- part_000 `crawlPage`: the static fetch and the Playwright re-fetch are
external collaborators, modelled as the two `Option CrawlResult` inputs
(the second is what `fetchWithPlaywright` would return if invoked). The
value of the config constant `THIN_PAGE_THRESHOLD` is not part of the
sources, so it is a parameter here. -/
def crawlPageModel (thinPageThreshold : Nat)
    (staticRes pwRes : Option CrawlResult) : Option CrawlResult :=
  match staticRes with
  | none => none
  | some result =>
    let tokens := estimateTokens result.markdown
    if thinPageThreshold ≤ tokens then some result
    else
      match pwRes with
      | some pwResult =>
        if tokens < estimateTokens pwResult.markdown then some pwResult
        else some result
      | none => some result

/-- The section tag given to runtime-discovered pages in `crawlAll`. -/
def discoveredSection : Str := str "Discovered"

/-- Shared mutable state of part_000 / crawl.ts `crawlAll`: the frontier
queue, the visited set, the tasks claimed but not yet completed (between
`visited.add` and the end of the awaited fetch), and the results array. -/
structure CrawlState where
  queue : List (Str × Str)
  visited : List Str
  inflight : List (Str × Str)
  results : List CrawlResult
deriving DecidableEq, Repr

/-- Interleaving semantics of the `processNext` workers: JavaScript runs the
code between two `await`s atomically, so `queue.shift()` + visited check +
`visited.add` is one step, and a completed fetch (result push + discovery
enqueueing) is another. -/
inductive CrawlStep (fetch : Str → Str → Option CrawlResult) :
    CrawlState → CrawlState → Prop
  | claimTask (path sec : Str) (q : List (Str × Str)) (visited : List Str)
      (inflight : List (Str × Str)) (results : List CrawlResult) :
      path ∉ visited →
      CrawlStep fetch ⟨(path, sec) :: q, visited, inflight, results⟩
        ⟨q, path :: visited, inflight ++ [(path, sec)], results⟩
  | skipVisited (path sec : Str) (q : List (Str × Str)) (visited : List Str)
      (inflight : List (Str × Str)) (results : List CrawlResult) :
      path ∈ visited →
      CrawlStep fetch ⟨(path, sec) :: q, visited, inflight, results⟩
        ⟨q, visited, inflight, results⟩
  | fetchOk (path sec : Str) (q : List (Str × Str)) (visited : List Str)
      (pre post : List (Str × Str)) (results : List CrawlResult)
      (r : CrawlResult) :
      fetch path sec = some r →
      CrawlStep fetch ⟨q, visited, pre ++ (path, sec) :: post, results⟩
        ⟨q ++ (r.discoveredPaths.filter
            (fun p => !(visited.contains p) && !(q.any (fun t => t.1 == p)))).map
            (fun p => (p, discoveredSection)),
          visited, pre ++ post, results ++ [r]⟩
  | fetchFail (path sec : Str) (q : List (Str × Str)) (visited : List Str)
      (pre post : List (Str × Str)) (results : List CrawlResult) :
      fetch path sec = none →
      CrawlStep fetch ⟨q, visited, pre ++ (path, sec) :: post, results⟩
        ⟨q, visited, pre ++ post, results⟩

/-- States reachable by `crawlAll` from the seed list. -/
inductive CrawlReachable (fetch : Str → Str → Option CrawlResult)
    (seeds : List (Str × Str)) : CrawlState → Prop
  | start : CrawlReachable fetch seeds ⟨seeds, [], [], []⟩
  | step {s s' : CrawlState} : CrawlReachable fetch seeds s →
      CrawlStep fetch s s' → CrawlReachable fetch seeds s'

/-- Value of a decimal digit string (verification helper). -/
def decDigits (s : Str) : Nat :=
  s.foldl (fun a c => a * 10 + (c.toNat - 48)) 0

/-- A pack group is nonempty and is either one paragraph or has summed
per-paragraph estimates within the maximum (verification helper). -/
def goodGroup (g : List Str) : Prop :=
  g ≠ [] ∧ (g.length = 1 ∨ (g.map estimateTokens).sum ≤ MAX_CHUNK_TOKENS)

/-- A 3000-character paragraph (estimate 750). -/
def bigA : Str := List.replicate 3000 'a'

/-- A second 3000-character paragraph (estimate 750). -/
def bigB : Str := List.replicate 3000 'b'

/-- Two 750-estimate paragraphs separated by a blank line: 6002 characters,
estimate 1501. -/
def bigContent : Str := bigA ++ '\n' :: '\n' :: bigB

/-- A small fixed page used in concrete computations. -/
def pageA : CrawlResult :=
  { url := str "u1", path := str "/docs/p1", «section» := str "S"
    title := str "T", description := []
    markdown := str "hello", discoveredPaths := [], crawledAt := str "t"
    fetchMethod := .static }

/-- A distinct page sharing `pageA`'s title. -/
def pageB : CrawlResult :=
  { pageA with url := str "u2", path := str "/docs/p2" }

/-- A page whose markdown is whitespace only. -/
def wsPage : CrawlResult :=
  { pageA with markdown := [' ', '\n', '\t', ' '] }

/-- A page with two headed sections large enough not to be merged. -/
def twoSecPage : CrawlResult :=
  { pageA with markdown :=
      (str "# A " ++ List.replicate 640 'x' ++ str "\n\n## B " ++
        List.replicate 640 'y') }

/-- Static fetch outcome with estimate 10 for the thinness scenario. -/
def thinStatic : CrawlResult :=
  { pageA with markdown := List.replicate 40 'a', fetchMethod := .static }

/-- Rendered fetch outcome with estimate 500 for the thinness scenario. -/
def richRendered : CrawlResult :=
  { pageA with markdown := List.replicate 2000 'b', fetchMethod := .playwright }

/-- A concrete fetch oracle for crawl runs: every path succeeds, tagged with
the requesting section, and discovers nothing. -/
def fetchW : Str → Str → Option CrawlResult := fun path sec =>
  some { url := path, path := path, «section» := sec, title := []
         description := [], markdown := [], discoveredPaths := []
         crawledAt := [], fetchMethod := .static }

/-- A seed path shared by two seed tasks. -/
def seedPath : Str := str "/docs/x"

/-- First seed section tag. -/
def sectionX : Str := str "X"

/-- Second seed section tag. -/
def sectionY : Str := str "Y"

/-- What `fetchW` returns for `seedPath` when asked by section `sectionX`. -/
def resW : CrawlResult :=
  { url := seedPath, path := seedPath, «section» := sectionX, title := []
    description := [], markdown := [], discoveredPaths := []
    crawledAt := [], fetchMethod := .static }

/-! ## Lemmas -/

theorem estimateTokens_append_sep (a b : Str) :
    estimateTokens (a ++ '\n' :: '\n' :: b)
      ≤ estimateTokens a + estimateTokens b + 1 := by
  simp only [estimateTokens, List.length_append, List.length_cons]
  omega

theorem mergeStep_bound (acc : List Section) (s : Section)
    (hacc : ∀ t ∈ acc, estimateTokens t.content ≤ MAX_CHUNK_TOKENS)
    (hs : estimateTokens s.content ≤ MAX_CHUNK_TOKENS) :
    ∀ t ∈ mergeStep acc s, estimateTokens t.content ≤ MAX_CHUNK_TOKENS := by
  intro t ht
  cases hlast : acc.getLast? with
  | none =>
    simp only [mergeStep, hlast] at ht
    rcases List.mem_append.1 ht with h | h
    · exact hacc t h
    · rw [List.mem_singleton] at h
      subst h
      exact hs
  | some prev =>
    simp only [mergeStep, hlast] at ht
    by_cases hcond : estimateTokens s.content < MIN_CHUNK_TOKENS ∧
        estimateTokens prev.content + estimateTokens s.content < MAX_CHUNK_TOKENS
    · rw [if_pos hcond] at ht
      rcases List.mem_append.1 ht with h | h
      · exact hacc t (List.dropLast_subset acc h)
      · rw [List.mem_singleton] at h
        subst h
        have h2 := estimateTokens_append_sep prev.content s.content
        have h3 := hcond.2
        simp only []
        omega
    · rw [if_neg hcond] at ht
      rcases List.mem_append.1 ht with h | h
      · exact hacc t h
      · rw [List.mem_singleton] at h
        subst h
        exact hs

theorem mergeFold_bound (l : List Section) :
    ∀ acc : List Section,
      (∀ t ∈ acc, estimateTokens t.content ≤ MAX_CHUNK_TOKENS) →
      (∀ s ∈ l, estimateTokens s.content ≤ MAX_CHUNK_TOKENS) →
      ∀ t ∈ l.foldl mergeStep acc, estimateTokens t.content ≤ MAX_CHUNK_TOKENS := by
  induction l with
  | nil =>
    intro acc hacc _ t ht
    exact hacc t ht
  | cons s l ih =>
    intro acc hacc hl t ht
    rw [List.foldl_cons] at ht
    exact ih (mergeStep acc s)
      (mergeStep_bound acc s hacc (hl s (by simp)))
      (fun x hx => hl x (by simp [hx])) t ht

/-- C2: given input sections within the maximum, every output of the merge
phase stays within the maximum, and a small section is absorbed into the
immediately preceding output section exactly when the combined size check
passes, else it stands alone. -/
theorem C2_merge_bounded :
    (∀ sections : List Section,
        (∀ s ∈ sections, estimateTokens s.content ≤ MAX_CHUNK_TOKENS) →
        ∀ t ∈ mergeSections sections,
          estimateTokens t.content ≤ MAX_CHUNK_TOKENS)
    ∧ ∀ a b : Section,
        mergeSections [a, b] =
          if estimateTokens b.content < MIN_CHUNK_TOKENS ∧
              estimateTokens a.content + estimateTokens b.content
                < MAX_CHUNK_TOKENS then
            [⟨a.heading, a.headingLevel, a.content ++ '\n' :: '\n' :: b.content⟩]
          else [a, b] := by
  constructor
  · intro sections hin t ht
    exact mergeFold_bound sections [] (by simp) hin t ht
  · intro a b
    rfl

/-- Witness for C2 at a concrete bounded input. -/
theorem C2_witness :
    (∀ s ∈ [(⟨[], 0, str "abcd"⟩ : Section)],
        estimateTokens s.content ≤ MAX_CHUNK_TOKENS)
    ∧ ∀ t ∈ mergeSections [(⟨[], 0, str "abcd"⟩ : Section)],
        estimateTokens t.content ≤ MAX_CHUNK_TOKENS :=
  ⟨by decide, C2_merge_bounded.1 [⟨[], 0, str "abcd"⟩] (by decide)⟩

theorem packStep_flush (res : List (List Str)) (cur : List Str) (tok : Nat)
    (p : Str) (hc : MAX_CHUNK_TOKENS < tok + estimateTokens p ∧ cur ≠ []) :
    packStep (res, cur, tok) p = (res ++ [cur], [p], estimateTokens p) := by
  show (if MAX_CHUNK_TOKENS < tok + estimateTokens p ∧ cur ≠ [] then
          (res ++ [cur], [p], estimateTokens p)
        else (res, cur ++ [p], tok + estimateTokens p)) = _
  rw [if_pos hc]

theorem packStep_keep (res : List (List Str)) (cur : List Str) (tok : Nat)
    (p : Str) (hc : ¬ (MAX_CHUNK_TOKENS < tok + estimateTokens p ∧ cur ≠ [])) :
    packStep (res, cur, tok) p = (res, cur ++ [p], tok + estimateTokens p) := by
  show (if MAX_CHUNK_TOKENS < tok + estimateTokens p ∧ cur ≠ [] then
          (res ++ [cur], [p], estimateTokens p)
        else (res, cur ++ [p], tok + estimateTokens p)) = _
  rw [if_neg hc]

theorem packFold_spec (l : List Str) :
    ∀ (res : List (List Str)) (cur : List Str) (tok : Nat),
      tok = (cur.map estimateTokens).sum →
      (∀ g ∈ res, goodGroup g) →
      (cur = [] ∨ goodGroup cur) →
      ((l.foldl packStep (res, cur, tok)).1.flatten
          ++ (l.foldl packStep (res, cur, tok)).2.1
        = res.flatten ++ cur ++ l)
      ∧ (∀ g ∈ (l.foldl packStep (res, cur, tok)).1, goodGroup g)
      ∧ ((l.foldl packStep (res, cur, tok)).2.1 = []
          ∨ goodGroup (l.foldl packStep (res, cur, tok)).2.1)
      ∧ (l.foldl packStep (res, cur, tok)).2.2
          = ((l.foldl packStep (res, cur, tok)).2.1.map estimateTokens).sum := by
  induction l with
  | nil =>
    intro res cur tok htok hres hcur
    simp only [List.foldl_nil]
    exact ⟨by simp, hres, hcur, htok⟩
  | cons p l ih =>
    intro res cur tok htok hres hcur
    rw [List.foldl_cons]
    by_cases hc : MAX_CHUNK_TOKENS < tok + estimateTokens p ∧ cur ≠ []
    · rw [packStep_flush res cur tok p hc]
      have hcur' : goodGroup cur := hcur.resolve_left hc.2
      have hres' : ∀ g ∈ res ++ [cur], goodGroup g := by
        intro g hg
        rcases List.mem_append.1 hg with h | h
        · exact hres g h
        · rw [List.mem_singleton] at h
          subst h
          exact hcur'
      have h := ih (res ++ [cur]) [p] (estimateTokens p) (by simp) hres'
        (Or.inr ⟨by simp, Or.inl rfl⟩)
      refine ⟨?_, h.2.1, h.2.2.1, h.2.2.2⟩
      rw [h.1]
      simp [List.append_assoc]
    · rw [packStep_keep res cur tok p hc]
      have hcur' : cur ++ [p] = [] ∨ goodGroup (cur ++ [p]) := by
        right
        refine ⟨by simp, ?_⟩
        by_cases hnil : cur = []
        · subst hnil
          exact Or.inl (by simp)
        · right
          have hle : ¬ MAX_CHUNK_TOKENS < tok + estimateTokens p :=
            fun hlt => hc ⟨hlt, hnil⟩
          rw [List.map_append, List.sum_append]
          simp only [List.map_cons, List.map_nil, List.sum_cons, List.sum_nil]
          omega
      have h := ih res (cur ++ [p]) (tok + estimateTokens p)
        (by rw [List.map_append, List.sum_append]; simp [htok]) hres hcur'
      refine ⟨?_, h.2.1, h.2.2.1, h.2.2.2⟩
      rw [h.1]
      simp [List.append_assoc]

theorem packParas_spec (paras : List Str) :
    (packParas paras).flatten = paras ∧ ∀ g ∈ packParas paras, goodGroup g := by
  have h := packFold_spec paras [] [] 0 rfl (by simp) (Or.inl rfl)
  by_cases hc : (paras.foldl packStep ([], [], 0)).2.1 ≠ []
  · have hpp : packParas paras
        = (paras.foldl packStep ([], [], 0)).1
          ++ [(paras.foldl packStep ([], [], 0)).2.1] := by
      simp only [packParas]
      rw [if_pos hc]
    rw [hpp]
    constructor
    · rw [List.flatten_append]
      have h1 := h.1
      simp only [List.flatten_nil, List.nil_append] at h1
      simpa using h1
    · intro g hg
      rcases List.mem_append.1 hg with hmem | hmem
      · exact h.2.1 g hmem
      · rw [List.mem_singleton] at hmem
        subst hmem
        exact h.2.2.1.resolve_left hc
  · have hpp : packParas paras = (paras.foldl packStep ([], [], 0)).1 := by
      simp only [packParas]
      rw [if_neg hc]
    push_neg at hc
    rw [hpp]
    constructor
    · have h1 := h.1
      rw [hc] at h1
      simpa using h1
    · exact h.2.1

/-- C1 (amended): for a section over the maximum, the split-large phase
partitions its paragraph list into nonempty consecutive groups, each either
a single paragraph or with summed per-paragraph estimates at most the
maximum; each piece is one group joined by blank lines and inherits the
section's heading and headingLevel. -/
theorem C1_amended_split_large (s : Section)
    (h : MAX_CHUNK_TOKENS < estimateTokens s.content) :
    (∀ piece ∈ splitLargeSection s,
        piece.heading = s.heading ∧ piece.headingLevel = s.headingLevel)
    ∧ ∃ groups : List (List Str),
        groups.flatten = splitParas s.content
        ∧ splitLargeSection s
            = groups.map (fun g => ⟨s.heading, s.headingLevel, joinParas g⟩)
        ∧ ∀ g ∈ groups,
            g ≠ [] ∧ (g.length = 1
              ∨ (g.map estimateTokens).sum ≤ MAX_CHUNK_TOKENS) := by
  have hsplit : splitLargeSection s
      = (packParas (splitParas s.content)).map
          (fun g => ⟨s.heading, s.headingLevel, joinParas g⟩) := by
    unfold splitLargeSection
    rw [if_neg (by omega)]
  constructor
  · intro piece hp
    rw [hsplit] at hp
    obtain ⟨g, _, rfl⟩ := List.mem_map.1 hp
    exact ⟨rfl, rfl⟩
  · exact ⟨packParas (splitParas s.content), (packParas_spec _).1, hsplit,
      fun g hg => (packParas_spec _).2 g hg⟩

theorem splitParas_ne_nil : ∀ s : Str, splitParas s ≠ []
  | [] => by simp [splitParas]
  | [c] => by simp [splitParas]
  | c :: d :: rest => by
    simp only [splitParas]
    split
    · simp
    · split <;> simp

theorem splitParas_append_no_nl (l : Str) :
    ∀ r : Str, (∀ c ∈ l, ¬ c = '\n') →
      splitParas (l ++ r)
        = (l ++ (splitParas r).headI) :: (splitParas r).tail := by
  induction l with
  | nil =>
    intro r _
    obtain ⟨p, ps, hp⟩ := List.exists_cons_of_ne_nil (splitParas_ne_nil r)
    simp [hp]
  | cons c l ih =>
    intro r h
    have hc : ¬ c = '\n' := h c (by simp)
    cases hlr : l ++ r with
    | nil =>
      obtain ⟨hl, hr⟩ := List.append_eq_nil.1 hlr
      subst hl
      subst hr
      simp [splitParas]
    | cons d rest =>
      have hcons : (c :: l) ++ r = c :: d :: rest := by
        rw [List.cons_append, hlr]
      rw [hcons]
      simp only [splitParas]
      rw [if_neg (fun hand => hc hand.1)]
      rw [← hlr, ih r (fun x hx => h x (by simp [hx]))]
      simp

theorem length_bigA : bigA.length = 3000 := by
  show (List.replicate 3000 'a').length = 3000
  rw [List.length_replicate]

theorem length_bigB : bigB.length = 3000 := by
  show (List.replicate 3000 'b').length = 3000
  rw [List.length_replicate]

theorem est_bigA : estimateTokens bigA = 750 := by
  show (bigA.length + 3) / 4 = 750
  rw [length_bigA]

theorem est_bigB : estimateTokens bigB = 750 := by
  show (bigB.length + 3) / 4 = 750
  rw [length_bigB]

theorem length_bigContent : bigContent.length = 6002 := by
  show (bigA ++ '\n' :: '\n' :: bigB).length = 6002
  rw [List.length_append, List.length_cons, List.length_cons, length_bigA,
    length_bigB]

theorem est_bigContent : estimateTokens bigContent = 1501 := by
  show (bigContent.length + 3) / 4 = 1501
  rw [length_bigContent]

theorem bigB_dropWhile : bigB.dropWhile (fun e => e = '\n') = bigB := by
  show ('b' :: List.replicate 2999 'b').dropWhile (fun e => e = '\n') = bigB
  rw [List.dropWhile_cons, if_neg (by decide)]
  rfl

theorem splitParas_bigContent : splitParas bigContent = [bigA, bigB] := by
  have hA : ∀ c ∈ bigA, ¬ c = '\n' := by
    intro c hcmem
    rw [List.eq_of_mem_replicate hcmem]
    decide
  have hB : ∀ c ∈ bigB, ¬ c = '\n' := by
    intro c hcmem
    rw [List.eq_of_mem_replicate hcmem]
    decide
  have h1 : splitParas bigB = [bigB] := by
    have h := splitParas_append_no_nl bigB [] hB
    simpa [splitParas] using h
  have h2 : splitParas ('\n' :: '\n' :: bigB)
      = [] :: splitParas (bigB.dropWhile (fun e => e = '\n')) := by
    simp only [splitParas]
    simp
  have h3 : splitParas ('\n' :: '\n' :: bigB) = [[], bigB] := by
    rw [h2, bigB_dropWhile, h1]
  calc splitParas bigContent
      = splitParas (bigA ++ ('\n' :: '\n' :: bigB)) := rfl
    _ = (bigA ++ (splitParas ('\n' :: '\n' :: bigB)).headI)
          :: (splitParas ('\n' :: '\n' :: bigB)).tail :=
        splitParas_append_no_nl bigA _ hA
    _ = [bigA, bigB] := by
        rw [h3]
        simp

theorem packParas_big : packParas [bigA, bigB] = [[bigA, bigB]] := by
  have s1 : packStep ([], [], 0) bigA = ([], [bigA], 750) := by
    rw [packStep_keep [] [] 0 bigA (by simp), est_bigA]
    simp
  have s2 : packStep ([], [bigA], 750) bigB = ([], [bigA, bigB], 1500) := by
    rw [packStep_keep [] [bigA] 750 bigB
      (by rw [est_bigB]; intro hand; exact absurd hand.1 (by decide)), est_bigB]
    simp
  have hfold : [bigA, bigB].foldl packStep ([], [], 0) = ([], [bigA, bigB], 1500) := by
    rw [List.foldl_cons, s1, List.foldl_cons, s2, List.foldl_nil]
  simp only [packParas, hfold]
  simp

theorem splitLarge_big :
    splitLargeSection ⟨[], 0, bigContent⟩ = [⟨[], 0, bigContent⟩] := by
  unfold splitLargeSection
  rw [if_neg (by show ¬ (estimateTokens bigContent ≤ MAX_CHUNK_TOKENS)
                 rw [est_bigContent]; decide)]
  show (packParas (splitParas bigContent)).map
      (fun g => (⟨[], 0, joinParas g⟩ : Section)) = ([⟨[], 0, bigContent⟩] : List Section)
  rw [splitParas_bigContent, packParas_big]
  simp [joinParas, bigContent]

/-- C1 counterexample: the section made of two 750-estimate paragraphs has
estimate 1501 > 1500, triggers the split-large phase, yet the phase returns
it unchanged: a piece over the maximum that is not a single paragraph. -/
theorem C1_counterexample :
    ∃ piece ∈ splitLargeSection ⟨[], 0, bigContent⟩,
      MAX_CHUNK_TOKENS < estimateTokens piece.content
      ∧ (splitParas piece.content).length ≠ 1 := by
  refine ⟨⟨[], 0, bigContent⟩, ?_, ?_, ?_⟩
  · rw [splitLarge_big]
    exact List.mem_singleton.2 rfl
  · show MAX_CHUNK_TOKENS < estimateTokens bigContent
    rw [est_bigContent]
    decide
  · show (splitParas bigContent).length ≠ 1
    rw [splitParas_bigContent]
    decide

/-- Witness for the amended C1 at the concrete oversized section. -/
theorem C1_amended_witness :
    MAX_CHUNK_TOKENS < estimateTokens bigContent
    ∧ ((∀ piece ∈ splitLargeSection ⟨[], 0, bigContent⟩,
          piece.heading = ([] : Str) ∧ piece.headingLevel = 0)
        ∧ ∃ groups : List (List Str),
            groups.flatten = splitParas bigContent
            ∧ splitLargeSection ⟨[], 0, bigContent⟩
                = groups.map (fun g => ⟨[], 0, joinParas g⟩)
            ∧ ∀ g ∈ groups,
                g ≠ [] ∧ (g.length = 1
                  ∨ (g.map estimateTokens).sum ≤ MAX_CHUNK_TOKENS)) :=
  ⟨by rw [est_bigContent]; decide,
    C1_amended_split_large ⟨[], 0, bigContent⟩ (by rw [est_bigContent]; decide)⟩

theorem length_mapWithIdx {α β : Type} (f : Nat → α → β) :
    ∀ (n : Nat) (l : List α), (mapWithIdx f n l).length = l.length
  | _, [] => rfl
  | n, a :: as => by
    simp [mapWithIdx, length_mapWithIdx f (n + 1) as]

theorem map_mapWithIdx {α β γ : Type} (f : Nat → α → β) (g : β → γ) :
    ∀ (n : Nat) (l : List α),
      (mapWithIdx f n l).map g = mapWithIdx (fun i a => g (f i a)) n l
  | _, [] => rfl
  | n, a :: as => by
    simp [mapWithIdx, map_mapWithIdx f g (n + 1) as]

theorem mapWithIdx_const_idx {α : Type} :
    ∀ (n : Nat) (l : List α),
      mapWithIdx (fun i (_ : α) => i) n l = List.range' n l.length
  | _, [] => rfl
  | n, a :: as => by
    simp [mapWithIdx, mapWithIdx_const_idx (n + 1) as, List.range'_succ]

theorem mem_mapWithIdx {α β : Type} (f : Nat → α → β) :
    ∀ (n : Nat) (l : List α) (c : β),
      c ∈ mapWithIdx f n l → ∃ i a, n ≤ i ∧ a ∈ l ∧ c = f i a := by
  intro n l
  induction l generalizing n with
  | nil => intro c hc; cases hc
  | cons a as ih =>
    intro c hc
    rcases hc with _ | ⟨_, hmem⟩
    · exact ⟨n, a, le_refl n, by simp, rfl⟩
    · obtain ⟨i, b, hi, hb, rfl⟩ := ih (n + 1) c hmem
      exact ⟨i, b, by omega, by simp [hb], rfl⟩

/-- C5: chunk indices of a page form the dense 0-based sequence in section
order, and every chunk's totalChunks equals the page's chunk count. -/
theorem C5_chunk_indexing (page : CrawlResult) :
    ((chunkPage page).map (fun c => c.chunkIndex))
        = List.range (chunkPage page).length
    ∧ ∀ c ∈ chunkPage page, c.totalChunks = (chunkPage page).length := by
  by_cases h : trimStr page.markdown = []
  · unfold chunkPage
    rw [if_pos h]
    exact ⟨rfl, by simp⟩
  · have hch : chunkPage page = mapWithIdx (mkChunk page) 0 (pageSections page) := by
      unfold chunkPage
      rw [if_neg h]
    rw [hch]
    constructor
    · rw [map_mapWithIdx, length_mapWithIdx]
      show mapWithIdx (fun i (_ : Section) => i) 0 (pageSections page)
          = List.range (pageSections page).length
      rw [mapWithIdx_const_idx, List.range_eq_range']
    · intro c hc
      obtain ⟨i, a, _, _, rfl⟩ :=
        mem_mapWithIdx (mkChunk page) 0 (pageSections page) c hc
      rw [length_mapWithIdx]
      rfl

/-- Witness for C5 at a concrete page. -/
theorem C5_witness :
    ((chunkPage pageA).map (fun c => c.chunkIndex))
        = List.range (chunkPage pageA).length
    ∧ ∀ c ∈ chunkPage pageA, c.totalChunks = (chunkPage pageA).length :=
  C5_chunk_indexing pageA

theorem trimStr_eq_nil (s : Str) (h : ∀ c ∈ s, isWs c) : trimStr s = [] := by
  unfold trimStr
  have h1 : s.dropWhile isWs = [] := List.dropWhile_eq_nil_iff.2 h
  rw [h1]
  rfl

/-- C10: a page whose markdown is empty or whitespace only produces no
chunks, and contributes nothing to `chunkAll`. -/
theorem C10_blank_page (page : CrawlResult)
    (h : ∀ c ∈ page.markdown, isWs c) :
    chunkPage page = []
    ∧ ∀ pre post : List CrawlResult,
        chunkAll (pre ++ page :: post) = chunkAll (pre ++ post) := by
  have hnil : chunkPage page = [] := by
    unfold chunkPage
    rw [if_pos (trimStr_eq_nil page.markdown h)]
  refine ⟨hnil, ?_⟩
  intro pre post
  unfold chunkAll
  simp [List.flatten_append, hnil]

/-- Witness for C10 at a concrete whitespace-only page. -/
theorem C10_witness :
    chunkPage wsPage = []
    ∧ chunkAll ([pageA] ++ wsPage :: [pageB]) = chunkAll ([pageA] ++ [pageB]) :=
  ⟨(C10_blank_page wsPage (by decide)).1,
    (C10_blank_page wsPage (by decide)).2 [pageA] [pageB]⟩

/-- C6: when the static fetch is thin, the fetcher keeps the rendered
result exactly when its estimate is strictly larger, keeps the static
result when rendering fails, and in the 10-versus-500 scenario returns the
rendered result with its `playwright` tag. -/
theorem C6_thin_fallback (thresh : Nat) (sres pres : CrawlResult)
    (hthin : estimateTokens sres.markdown < thresh) :
    (crawlPageModel thresh (some sres) none = some sres)
    ∧ (crawlPageModel thresh (some sres) (some pres)
        = if estimateTokens sres.markdown < estimateTokens pres.markdown
          then some pres else some sres)
    ∧ (estimateTokens sres.markdown = 10 → estimateTokens pres.markdown = 500 →
        sres.fetchMethod = .static → pres.fetchMethod = .playwright →
        crawlPageModel thresh (some sres) (some pres) = some pres
        ∧ pres.fetchMethod = .playwright) := by
  have hlt : ¬ thresh ≤ estimateTokens sres.markdown := by omega
  refine ⟨?_, ?_, ?_⟩
  · simp only [crawlPageModel]
    rw [if_neg hlt]
  · simp only [crawlPageModel]
    rw [if_neg hlt]
  · intro h10 h500 _ hpw
    refine ⟨?_, hpw⟩
    simp only [crawlPageModel]
    rw [if_neg hlt, if_pos (by omega)]

theorem est_replicate (n : Nat) (c : Char) :
    estimateTokens (List.replicate n c) = (n + 3) / 4 := by
  unfold estimateTokens
  rw [List.length_replicate]

theorem est_richRendered : estimateTokens richRendered.markdown = 500 := by
  have h : richRendered.markdown = List.replicate 2000 'b' := rfl
  rw [h, est_replicate]

/-- Witness for C6 at the concrete 10-versus-500 scenario. -/
theorem C6_witness :
    estimateTokens thinStatic.markdown < 200
    ∧ crawlPageModel 200 (some thinStatic) (some richRendered)
        = some richRendered
    ∧ richRendered.fetchMethod = .playwright :=
  ⟨by decide,
    ((C6_thin_fallback 200 thinStatic richRendered (by decide)).2.2
      (by decide) est_richRendered (by decide) (by decide)).1,
    ((C6_thin_fallback 200 thinStatic richRendered (by decide)).2.2
      (by decide) est_richRendered (by decide) (by decide)).2⟩

theorem digitChar_toNat (d : Nat) (h : d < 10) : (digitChar d).toNat - 48 = d := by
  interval_cases d <;> decide

theorem decDigits_append (s : Str) (c : Char) :
    decDigits (s ++ [c]) = decDigits s * 10 + (c.toNat - 48) := by
  simp [decDigits, List.foldl_append]

theorem decDigits_natToDecAux :
    ∀ (fuel n : Nat), n < fuel → decDigits (natToDecAux fuel n) = n
  | 0, n, h => absurd h (by omega)
  | fuel + 1, n, h => by
    show decDigits (if n < 10 then [digitChar n]
      else natToDecAux fuel (n / 10) ++ [digitChar (n % 10)]) = n
    by_cases h10 : n < 10
    · rw [if_pos h10]
      have hd := digitChar_toNat n h10
      simp [decDigits]
      omega
    · rw [if_neg h10, decDigits_append]
      have hlt : n / 10 < fuel := by
        have hdiv : n / 10 < n := Nat.div_lt_self (by omega) (by decide)
        omega
      rw [decDigits_natToDecAux fuel (n / 10) hlt,
        digitChar_toNat (n % 10) (by omega)]
      omega

theorem decDigits_natToDec (n : Nat) : decDigits (natToDec n) = n :=
  decDigits_natToDecAux (n + 1) n (by omega)

theorem decDigits_zeros (k : Nat) (s : Str) :
    decDigits (List.replicate k '0' ++ s) = decDigits s := by
  induction k with
  | zero => simp
  | succ k ih =>
    rw [List.replicate_succ, List.cons_append]
    show (List.replicate k '0' ++ s).foldl
        (fun a c => a * 10 + (c.toNat - 48)) (0 * 10 + ('0'.toNat - 48))
      = decDigits s
    have h0 : (0 * 10 + ('0'.toNat - 48)) = 0 := by decide
    rw [h0]
    exact ih

theorem decDigits_pad2 (s : Str) : decDigits (pad2 s) = decDigits s := by
  unfold pad2
  split
  · rfl
  · rw [decDigits_zeros]

theorem mkChunk_id_inj (page : CrawlResult) (i j : Nat) (si sj : Section)
    (h : (mkChunk page i si).id = (mkChunk page j sj).id) : i = j := by
  have h' : slugify (titleOrFallback page) ++ '-' :: pad2 (natToDec i)
      = slugify (titleOrFallback page) ++ '-' :: pad2 (natToDec j) := h
  have h2 := List.append_cancel_left h'
  have h3 : pad2 (natToDec i) = pad2 (natToDec j) := by
    injection h2
  calc i = decDigits (pad2 (natToDec i)) := by
        rw [decDigits_pad2, decDigits_natToDec]
    _ = decDigits (pad2 (natToDec j)) := by rw [h3]
    _ = j := by rw [decDigits_pad2, decDigits_natToDec]

theorem nodup_mapWithIdx {α β : Type} (g : Nat → α → β)
    (hinj : ∀ i j a b, g i a = g j b → i = j) :
    ∀ (n : Nat) (l : List α), (mapWithIdx g n l).Nodup := by
  intro n l
  induction l generalizing n with
  | nil => exact List.nodup_nil
  | cons a as ih =>
    show (g n a :: mapWithIdx g (n + 1) as).Nodup
    rw [List.nodup_cons]
    refine ⟨?_, ih (n + 1)⟩
    intro hmem
    obtain ⟨i, b, hi, _, heq⟩ := mem_mapWithIdx g (n + 1) as _ hmem
    have := hinj n i a b heq
    omega

/-- C3 counterexample: two distinct pages sharing the title "T" both produce
the chunk id "t-00", so the ids across a run of `chunkAll` collide. -/
theorem C3_counterexample :
    ((chunkAll [pageA, pageB]).map (fun c => c.id)) = [str "t-00", str "t-00"]
    ∧ ¬ (((chunkAll [pageA, pageB]).map (fun c => c.id)).Nodup) := by
  constructor
  · decide
  · decide

/-- C3 (amended): chunk ids are pairwise distinct within one page's
`chunkPage` output; across pages, `chunkAll` ids can collide when two pages
share a slugified title. -/
theorem C3_amended_ids_unique (page : CrawlResult) :
    ((chunkPage page).map (fun c => c.id)).Nodup := by
  by_cases h : trimStr page.markdown = []
  · unfold chunkPage
    rw [if_pos h]
    exact List.nodup_nil
  · unfold chunkPage
    rw [if_neg h, map_mapWithIdx]
    exact nodup_mapWithIdx _
      (fun i j a b hab => mkChunk_id_inj page i j a b hab) 0 _

theorem length_hierGo (t : Str) :
    ∀ (stack : List (Str × Nat)) (secs : List Section),
      (hierGo t stack secs).length = secs.length
  | _, [] => rfl
  | stack, sec :: rest => by
    simp only [hierGo, List.length_cons]
    rw [length_hierGo t _ rest]

theorem hierGo_head_title (t : Str) :
    ∀ (stack : List (Str × Nat)) (secs : List Section),
      ∀ trail ∈ hierGo t stack secs, ∃ rest, trail = t :: rest := by
  intro stack secs
  induction secs generalizing stack with
  | nil => intro trail h; cases h
  | cons sec rest ih =>
    intro trail h
    rcases h with _ | ⟨_, hmem⟩
    · exact ⟨_, rfl⟩
    · exact ih _ trail hmem

/-- C7: every trail starts with the page title and there is one per
section; on the walk [A:1, B:2, C:2, D:1] over page title T the stack
discipline yields [T,A], [T,A,B], [T,A,C], [T,D] - the level-2 section
nested in level-1 "A" gets exactly [T, A, own heading]. -/
theorem C7_heading_hierarchy :
    (∀ (sections : List Section) (t : Str),
        (buildHeadingHierarchy sections t).length = sections.length
        ∧ ∀ trail ∈ buildHeadingHierarchy sections t,
            ∃ rest, trail = t :: rest)
    ∧ ∀ (t a b c d ca cb cc cd : Str),
        a ≠ [] → b ≠ [] → c ≠ [] → d ≠ [] →
        buildHeadingHierarchy
            [⟨a, 1, ca⟩, ⟨b, 2, cb⟩, ⟨c, 2, cc⟩, ⟨d, 1, cd⟩] t
          = [[t, a], [t, a, b], [t, a, c], [t, d]] := by
  constructor
  · intro sections t
    exact ⟨length_hierGo t [] sections, hierGo_head_title t [] sections⟩
  · intro t a b c d ca cb cc cd ha hb hc hd
    simp [buildHeadingHierarchy, hierGo, popGE, ha, hb, hc, hd]

/-- Witness for C7 at concrete headings. -/
theorem C7_witness :
    buildHeadingHierarchy
        [⟨str "A", 1, []⟩, ⟨str "B", 2, []⟩, ⟨str "C", 2, []⟩,
          ⟨str "D", 1, []⟩] (str "T")
      = [[str "T", str "A"], [str "T", str "A", str "B"],
          [str "T", str "A", str "C"], [str "T", str "D"]] :=
  C7_heading_hierarchy.2 (str "T") (str "A") (str "B") (str "C") (str "D")
    [] [] [] [] (by decide) (by decide) (by decide) (by decide)

theorem takeWhile_append_all (p : Char → Bool) :
    ∀ (l₁ l₂ : Str), (∀ c ∈ l₁, p c) →
      (l₁ ++ l₂).takeWhile p = l₁ ++ l₂.takeWhile p
  | [], _, _ => rfl
  | c :: l₁, l₂, h => by
    rw [List.cons_append, List.takeWhile_cons, if_pos (h c (by simp)),
      takeWhile_append_all p l₁ l₂ (fun x hx => h x (by simp [hx]))]
    rfl

theorem mem_takeWhile_pred (p : Char → Bool) :
    ∀ (l : Str) (a : Char), a ∈ l.takeWhile p → p a = true ∧ a ∈ l
  | [], a, h => by cases h
  | c :: l, a, h => by
    rw [List.takeWhile_cons] at h
    by_cases hc : p c
    · rw [if_pos hc] at h
      rcases h with _ | ⟨_, hmem⟩
      · exact ⟨hc, by simp⟩
      · obtain ⟨h1, h2⟩ := mem_takeWhile_pred p l a hmem
        exact ⟨h1, by simp [h2]⟩
    · rw [if_neg hc] at h
      cases h

theorem discoverStep_inv (acc : List Str) (href : Str)
    (h1 : acc.Nodup)
    (h2 : ∀ p ∈ acc, docsLinkStr.isPrefixOf p ∧ '#' ∉ p ∧ '?' ∉ p) :
    (discoverStep acc href).Nodup
    ∧ ∀ p ∈ discoverStep acc href,
        docsLinkStr.isPrefixOf p ∧ '#' ∉ p ∧ '?' ∉ p := by
  unfold discoverStep
  by_cases hc : docsLinkStr.isPrefixOf href ∧ '#' ∉ href
  · rw [if_pos hc]
    by_cases hm : href.takeWhile (fun c => ¬ c = '?') ∈ acc
    · rw [if_pos hm]
      exact ⟨h1, h2⟩
    · rw [if_neg hm]
      have hgood : docsLinkStr.isPrefixOf (href.takeWhile (fun c => ¬ c = '?'))
          ∧ '#' ∉ href.takeWhile (fun c => ¬ c = '?')
          ∧ '?' ∉ href.takeWhile (fun c => ¬ c = '?') := by
        refine ⟨?_, ?_, ?_⟩
        · obtain ⟨t, ht⟩ := ( List.isPrefixOf_iff_prefix).1 hc.1
          rw [← ht, takeWhile_append_all _ _ _ (by decide)]
          exact ( List.isPrefixOf_iff_prefix).2 (List.prefix_append _ _)
        · intro hmem
          exact hc.2 (mem_takeWhile_pred _ href '#' hmem).2
        · intro hmem
          have := (mem_takeWhile_pred _ href '?' hmem).1
          simp at this
      constructor
      · rw [List.nodup_append]
        refine ⟨h1, by simp, ?_⟩
        intro a ha hb
        rw [List.mem_singleton] at hb
        subst hb
        exact hm ha
      · intro p hp
        rcases List.mem_append.1 hp with hmem | hmem
        · exact h2 p hmem
        · rw [List.mem_singleton] at hmem
          subst hmem
          exact hgood
  · rw [if_neg hc]
    exact ⟨h1, h2⟩

theorem discoverFold_inv (hrefs : List Str) :
    ∀ acc : List Str,
      acc.Nodup →
      (∀ p ∈ acc, docsLinkStr.isPrefixOf p ∧ '#' ∉ p ∧ '?' ∉ p) →
      (hrefs.foldl discoverStep acc).Nodup
      ∧ ∀ p ∈ hrefs.foldl discoverStep acc,
          docsLinkStr.isPrefixOf p ∧ '#' ∉ p ∧ '?' ∉ p := by
  induction hrefs with
  | nil =>
    intro acc h1 h2
    exact ⟨h1, h2⟩
  | cons href hrefs ih =>
    intro acc h1 h2
    rw [List.foldl_cons]
    obtain ⟨h1', h2'⟩ := discoverStep_inv acc href h1 h2
    exact ih (discoverStep acc href) h1' h2'

/-- C8: for any list of `href` attribute values, the discovered path list
has no duplicates, and every entry is a `/docs/`-prefixed path with no
fragment marker and no query string. -/
theorem C8_discovered_paths (hrefs : List Str) :
    (discoverPaths hrefs).Nodup
    ∧ ∀ p ∈ discoverPaths hrefs,
        docsLinkStr.isPrefixOf p ∧ '#' ∉ p ∧ '?' ∉ p :=
  discoverFold_inv hrefs [] List.nodup_nil (by simp)

theorem splitOnCh_ne_nil (sep : Char) : ∀ s : Str, splitOnCh sep s ≠ []
  | [] => by simp [splitOnCh]
  | c :: rest => by
    simp only [splitOnCh]
    split
    · simp
    · split <;> simp

theorem joinLines_splitOnCh : ∀ s : Str, joinLines (splitOnCh '\n' s) = s
  | [] => rfl
  | c :: rest => by
    by_cases hc : c = '\n'
    · subst hc
      simp only [splitOnCh, if_pos rfl]
      obtain ⟨x, xs, hx⟩ :=
        List.exists_cons_of_ne_nil (splitOnCh_ne_nil '\n' rest)
      rw [hx]
      show [] ++ '\n' :: joinLines (x :: xs) = '\n' :: rest
      rw [List.nil_append, ← hx, joinLines_splitOnCh rest]
    · simp only [splitOnCh, if_neg hc]
      obtain ⟨x, xs, hx⟩ :=
        List.exists_cons_of_ne_nil (splitOnCh_ne_nil '\n' rest)
      rw [hx]
      have hrest := joinLines_splitOnCh rest
      rw [hx] at hrest
      cases xs with
      | nil =>
        show c :: x = c :: rest
        have hx2 : x = rest := hrest
        rw [hx2]
      | cons y ys =>
        show (c :: x) ++ '\n' :: joinLines (y :: ys) = c :: rest
        rw [List.cons_append]
        rw [show x ++ '\n' :: joinLines (y :: ys) = rest from hrest]

theorem nws_append (a b : Str) : nws (a ++ b) = nws a ++ nws b := by
  simp [nws]

theorem nws_cons_ws (c : Char) (h : isWs c) (s : Str) : nws (c :: s) = nws s := by
  simp [nws, List.filter_cons, h]

theorem nws_dropWhile (s : Str) : nws (s.dropWhile isWs) = nws s := by
  induction s with
  | nil => rfl
  | cons c s ih =>
    rw [List.dropWhile_cons]
    by_cases hc : isWs c
    · rw [if_pos hc, ih, nws_cons_ws c hc]
    · rw [if_neg hc]

theorem nws_reverse (s : Str) : nws s.reverse = (nws s).reverse := by
  simp [nws]

theorem nws_trimStr (s : Str) : nws (trimStr s) = nws s := by
  unfold trimStr
  rw [nws_reverse, nws_dropWhile, nws_reverse, nws_dropWhile,
    List.reverse_reverse]

theorem nws_joinLines : ∀ L : List Str, nws (joinLines L) = (L.map nws).flatten
  | [] => rfl
  | [l] => by simp [joinLines]
  | l :: l' :: ls => by
    show nws (l ++ '\n' :: joinLines (l' :: ls)) = _
    rw [nws_append, nws_cons_ws '\n' (by decide), nws_joinLines (l' :: ls)]
    simp

theorem splitGo_nws (lines : List Str) :
    ∀ (ch : Str) (cl : Nat) (cur : List Str),
      ((splitGo ch cl cur lines).map (fun sec => nws sec.content)).flatten
        = ((cur ++ lines).map nws).flatten := by
  induction lines with
  | nil =>
    intro ch cl cur
    by_cases hc : cur ≠ []
    · simp only [splitGo]
      rw [if_pos hc]
      simp [nws_trimStr, nws_joinLines]
    · simp only [splitGo]
      rw [if_neg hc]
      rw [not_not.1 hc]
      rfl
  | cons line rest ih =>
    intro ch cl cur
    cases hm : matchHeading line with
    | some kb =>
      obtain ⟨k, body⟩ := kb
      simp only [splitGo, hm]
      rw [List.map_append, List.flatten_append, ih (trimStr body) k [line]]
      by_cases hc : cur ≠ []
      · rw [if_pos hc]
        simp [nws_trimStr, nws_joinLines]
      · rw [if_neg hc, not_not.1 hc]
        simp
    | none =>
      simp only [splitGo, hm]
      rw [ih ch cl (cur ++ [line])]
      simp

theorem trim_take_hashes (k : Nat) (line : Str) (t : List Str)
    (h : line.take (k + 1) = List.replicate (k + 1) '#') :
    (trimStr (joinLines (line :: t))).take (k + 1)
      = List.replicate (k + 1) '#' := by
  obtain ⟨u, hu⟩ : ∃ u, joinLines (line :: t) = line ++ u := by
    cases t with
    | nil => exact ⟨[], by simp [joinLines]⟩
    | cons a as => exact ⟨'\n' :: joinLines (a :: as), rfl⟩
  have hline : line = List.replicate (k + 1) '#' ++ line.drop (k + 1) := by
    conv_lhs => rw [← List.take_append_drop (k + 1) line]
    rw [h]
  rw [hu, hline, List.append_assoc]
  generalize line.drop (k + 1) ++ u = x
  unfold trimStr
  have h1 : (List.replicate (k + 1) '#' ++ x).dropWhile isWs
      = List.replicate (k + 1) '#' ++ x := by
    rw [List.replicate_succ, List.cons_append, List.dropWhile_cons,
      if_neg (by decide)]
  rw [h1, List.reverse_append, List.reverse_replicate, List.dropWhile_append]
  split
  · rw [List.replicate_succ, List.dropWhile_cons, if_neg (by decide),
      ← List.replicate_succ, List.reverse_replicate]
    rw [List.take_of_length_le (by rw [List.length_replicate])]
  · rw [List.reverse_append, List.reverse_replicate]
    exact List.take_left' (by rw [List.length_replicate])

theorem matchHeading_take (line : Str) (k : Nat) (b : Str)
    (hm : matchHeading line = some (k, b)) :
    1 ≤ k ∧ line.take k = List.replicate k '#' := by
  have htw : line.takeWhile (fun c => c = '#')
      = List.replicate ((line.takeWhile (fun c => c = '#')).length) '#' := by
    rw [List.eq_replicate_iff]
    refine ⟨rfl, fun c hc => ?_⟩
    have := (mem_takeWhile_pred _ line c hc).1
    simpa using this
  have hpre : line.takeWhile (fun c => c = '#')
      = line.take ((line.takeWhile (fun c => c = '#')).length) :=
    List.prefix_iff_eq_take.1 ( List.takeWhile_prefix _)
  simp only [matchHeading] at hm
  split_ifs at hm with h1 h2 h3 h4 h5 <;>
    simp only [Option.some.injEq, Prod.mk.injEq, reduceCtorEq] at hm
  all_goals
    obtain ⟨hk, hb⟩ := hm
    refine ⟨by omega, ?_⟩
    rw [← hk, ← hpre, ← htw]

theorem splitGo_marker (lines : List Str) :
    ∀ (ch : Str) (cl : Nat) (cur : List Str),
      (1 ≤ cl → ∃ line t, cur = line :: t
        ∧ line.take cl = List.replicate cl '#') →
      ∀ sec ∈ splitGo ch cl cur lines, 1 ≤ sec.headingLevel →
        sec.content.take sec.headingLevel
          = List.replicate sec.headingLevel '#' := by
  induction lines with
  | nil =>
    intro ch cl cur hinv sec hsec hlev
    by_cases hc : cur ≠ []
    · simp only [splitGo] at hsec
      rw [if_pos hc, List.mem_singleton] at hsec
      subst hsec
      have hlev' : 1 ≤ cl := hlev
      obtain ⟨line, t, rfl, htake⟩ := hinv hlev'
      obtain ⟨k, rfl⟩ : ∃ k, cl = k + 1 := ⟨cl - 1, by omega⟩
      exact trim_take_hashes k line t htake
    · simp only [splitGo] at hsec
      rw [if_neg hc] at hsec
      cases hsec
  | cons line rest ih =>
    intro ch cl cur hinv sec hsec hlev
    cases hm : matchHeading line with
    | some kb =>
      obtain ⟨k, body⟩ := kb
      simp only [splitGo, hm] at hsec
      rcases List.mem_append.1 hsec with hmem | hmem
      · by_cases hc : cur ≠ []
        · rw [if_pos hc, List.mem_singleton] at hmem
          subst hmem
          have hlev' : 1 ≤ cl := hlev
          obtain ⟨line', t, rfl, htake⟩ := hinv hlev'
          obtain ⟨j, rfl⟩ : ∃ j, cl = j + 1 := ⟨cl - 1, by omega⟩
          exact trim_take_hashes j line' t htake
        · rw [if_neg hc] at hmem
          cases hmem
      · obtain ⟨h1k, htake⟩ := matchHeading_take line k body hm
        exact ih (trimStr body) k [line]
          (fun _ => ⟨line, [], rfl, htake⟩) sec hmem hlev
    | none =>
      simp only [splitGo, hm] at hsec
      refine ih ch cl (cur ++ [line]) ?_ sec hsec hlev
      intro h1
      obtain ⟨line', t, hcur, htake⟩ := hinv h1
      exact ⟨line', t ++ [line], by rw [hcur, List.cons_append], htake⟩

theorem splitGo_first (lines : List Str) :
    ∀ (ch : Str) (cl : Nat) (cur : List Str), cur ≠ [] →
      ∃ c rest, splitGo ch cl cur lines = ⟨ch, cl, c⟩ :: rest := by
  induction lines with
  | nil =>
    intro ch cl cur hc
    refine ⟨trimStr (joinLines cur), [], ?_⟩
    simp only [splitGo]
    rw [if_pos hc]
  | cons line rest ih =>
    intro ch cl cur hc
    cases hm : matchHeading line with
    | some kb =>
      obtain ⟨k, body⟩ := kb
      refine ⟨trimStr (joinLines cur), splitGo (trimStr body) k [line] rest, ?_⟩
      simp only [splitGo, hm]
      rw [if_pos hc]
      rfl
    | none =>
      obtain ⟨c, r, hr⟩ := ih ch cl (cur ++ [line]) (by simp)
      refine ⟨c, r, ?_⟩
      simp only [splitGo, hm]
      exact hr

/-- C4: concatenating the section contents of the split phase reproduces
the page markdown up to whitespace normalization; a headed section's
content starts with its `#` marker run; content preceding the first heading
becomes a level-0 section with empty heading. -/
theorem C4_split_reconstruction (md : Str) :
    ((splitByHeadings md).map (fun sec => nws sec.content)).flatten = nws md
    ∧ (∀ sec ∈ splitByHeadings md, 1 ≤ sec.headingLevel →
        sec.content.take sec.headingLevel
          = List.replicate sec.headingLevel '#')
    ∧ ∀ l ls, splitOnCh '\n' md = l :: ls → matchHeading l = none →
        ∃ c rest, splitByHeadings md = ⟨[], 0, c⟩ :: rest := by
  refine ⟨?_, ?_, ?_⟩
  · unfold splitByHeadings
    rw [splitGo_nws (splitOnCh '\n' md) [] 0 [], List.nil_append,
      ← nws_joinLines, joinLines_splitOnCh]
  · intro sec hsec
    exact splitGo_marker (splitOnCh '\n' md) [] 0 []
      (fun h => absurd h (by omega)) sec hsec
  · intro l ls hsplit hm
    unfold splitByHeadings
    rw [hsplit]
    have hstep : splitGo [] 0 [] (l :: ls) = splitGo [] 0 [l] ls := by
      simp only [splitGo, hm]
      rfl
    rw [hstep]
    exact splitGo_first ls [] 0 [l] (by simp)

/-- Witness for C4 at a concrete page text with a preamble and a heading. -/
theorem C4_witness :
    ((splitByHeadings (str "hello\n# A x\nbody")).map
        (fun sec => nws sec.content)).flatten = nws (str "hello\n# A x\nbody")
    ∧ ∃ c rest,
        splitByHeadings (str "hello\n# A x\nbody") = ⟨[], 0, c⟩ :: rest :=
  ⟨(C4_split_reconstruction (str "hello\n# A x\nbody")).1,
    (C4_split_reconstruction (str "hello\n# A x\nbody")).2.2
      (str "hello") [str "# A x", str "body"] (by decide) (by decide)⟩

theorem crawlStep_inv {fetch : Str → Str → Option CrawlResult}
    (hFetch : ∀ p sec r, fetch p sec = some r → r.path = p)
    {s s' : CrawlState} (hstep : CrawlStep fetch s s')
    (hnd : (s.results.map (fun r => r.path)
        ++ s.inflight.map (fun t => t.1)).Nodup)
    (hvis : ∀ p ∈ s.results.map (fun r => r.path)
        ++ s.inflight.map (fun t => t.1), p ∈ s.visited) :
    (s'.results.map (fun r => r.path)
        ++ s'.inflight.map (fun t => t.1)).Nodup
    ∧ ∀ p ∈ s'.results.map (fun r => r.path)
        ++ s'.inflight.map (fun t => t.1), p ∈ s'.visited := by
  cases hstep with
  | claimTask path sec q visited inflight results hnew =>
    have hnd' : (results.map (fun r => r.path)
        ++ inflight.map (fun t => t.1)).Nodup := hnd
    have hvis' : ∀ p ∈ results.map (fun r => r.path)
        ++ inflight.map (fun t => t.1), p ∈ visited := hvis
    constructor
    · show (results.map (fun r => r.path)
        ++ (inflight ++ [(path, sec)]).map (fun t => t.1)).Nodup
      rw [List.map_append, ← List.append_assoc, List.nodup_append]
      refine ⟨hnd', by simp, ?_⟩
      intro a ha hb
      simp only [List.map_cons, List.map_nil, List.mem_singleton] at hb
      subst hb
      exact hnew (hvis' a ha)
    · show ∀ p ∈ results.map (fun r => r.path)
          ++ (inflight ++ [(path, sec)]).map (fun t => t.1), p ∈ path :: visited
      intro p hp
      rw [List.map_append, ← List.append_assoc] at hp
      rcases List.mem_append.1 hp with h | h
      · exact List.mem_cons_of_mem _ (hvis' p h)
      · simp only [List.map_cons, List.map_nil, List.mem_singleton] at h
        subst h
        exact List.mem_cons_self _ _
  | skipVisited path sec q visited inflight results hv =>
    exact ⟨hnd, hvis⟩
  | fetchOk path sec q visited pre post results r hf =>
    have hrpath : r.path = path := hFetch path sec r hf
    have hperm : List.Perm ((pre ++ (path, sec) :: post).map (fun t => t.1))
        (path :: ((pre ++ post).map (fun t => t.1))) := by
      rw [List.map_append, List.map_cons, List.map_append]
      exact List.perm_middle
    have hpermAll : List.Perm
        (results.map (fun x => x.path)
          ++ (pre ++ (path, sec) :: post).map (fun t => t.1))
        ((results ++ [r]).map (fun x => x.path)
          ++ (pre ++ post).map (fun t => t.1)) := by
      have step1 := List.Perm.append_left (results.map (fun x => x.path)) hperm
      have step2 : results.map (fun x => x.path)
            ++ (path :: (pre ++ post).map (fun t => t.1))
          = (results ++ [r]).map (fun x => x.path)
            ++ (pre ++ post).map (fun t => t.1) := by
        simp [hrpath]
      rw [step2] at step1
      exact step1
    constructor
    · exact hpermAll.nodup_iff.1 hnd
    · intro p hp
      exact hvis p (hpermAll.mem_iff.2 hp)
  | fetchFail path sec q visited pre post results hf =>
    have hsub : List.Sublist
        (results.map (fun x => x.path) ++ (pre ++ post).map (fun t => t.1))
        (results.map (fun x => x.path)
          ++ (pre ++ (path, sec) :: post).map (fun t => t.1)) := by
      simp only [List.map_append, List.map_cons]
      exact ((List.sublist_cons_self _ _).append_left _).append_left _
    exact ⟨hnd.sublist hsub, fun p hp => hvis p (hsub.subset hp)⟩

theorem crawlReachable_inv {fetch : Str → Str → Option CrawlResult}
    (hFetch : ∀ p sec r, fetch p sec = some r → r.path = p)
    (seeds : List (Str × Str)) :
    ∀ s : CrawlState, CrawlReachable fetch seeds s →
      (s.results.map (fun r => r.path)
          ++ s.inflight.map (fun t => t.1)).Nodup
      ∧ ∀ p ∈ s.results.map (fun r => r.path)
          ++ s.inflight.map (fun t => t.1), p ∈ s.visited := by
  intro s h
  induction h with
  | start => exact ⟨by simp, by simp⟩
  | step hr hstep ih => exact crawlStep_inv hFetch hstep ih.1 ih.2

theorem crawlScenario_states (fetch : Str → Str → Option CrawlResult)
    (p s1 s2 : Str) (r : CrawlResult)
    (hf : fetch p s1 = some r) (hd : r.discoveredPaths = []) :
    ∀ st : CrawlState, CrawlReachable fetch [(p, s1), (p, s2)] st →
      st = ⟨[(p, s1), (p, s2)], [], [], []⟩
      ∨ st = ⟨[(p, s2)], [p], [(p, s1)], []⟩
      ∨ st = ⟨[], [p], [(p, s1)], []⟩
      ∨ st = ⟨[(p, s2)], [p], [], [r]⟩
      ∨ st = ⟨[], [p], [], [r]⟩ := by
  intro st h
  induction h with
  | start => exact Or.inl rfl
  | step hr hstep ih =>
    cases hstep with
    | claimTask path sec q visited inflight results hnew =>
      rcases ih with hs | hs | hs | hs | hs <;>
        simp_all [CrawlState.mk.injEq]
    | skipVisited path sec q visited inflight results hv =>
      rcases ih with hs | hs | hs | hs | hs <;>
        simp_all [CrawlState.mk.injEq]
    | fetchOk path sec q visited pre post results r' hf' =>
      rcases ih with hs | hs | hs | hs | hs
      · have hinf := congrArg CrawlState.inflight hs
        cases pre <;> simp_all
      · have hinf := congrArg CrawlState.inflight hs
        have hq := congrArg CrawlState.queue hs
        have hv := congrArg CrawlState.visited hs
        have hres := congrArg CrawlState.results hs
        simp only at hinf hq hv hres
        cases pre with
        | cons x xs =>
          exfalso
          rw [List.cons_append] at hinf
          have := congrArg List.tail hinf
          simp at this
        | nil =>
          rw [List.nil_append] at hinf
          obtain ⟨hps, hpost⟩ : (path, sec) = (p, s1) ∧ post = [] := by
            constructor
            · exact (List.cons.injEq _ _ _ _ ▸ hinf :
                (path, sec) = (p, s1) ∧ post = ([] : List (Str × Str))).1
            · exact (List.cons.injEq _ _ _ _ ▸ hinf :
                (path, sec) = (p, s1) ∧ post = ([] : List (Str × Str))).2
          obtain ⟨rfl, rfl⟩ : path = p ∧ sec = s1 :=
            ⟨congrArg Prod.fst hps, congrArg Prod.snd hps⟩
          rw [hf] at hf'
          obtain rfl : r = r' := Option.some.inj hf'
          subst hq hv hres hpost
          right; right; right; left
          simp [hd]
      · have hinf := congrArg CrawlState.inflight hs
        have hq := congrArg CrawlState.queue hs
        have hv := congrArg CrawlState.visited hs
        have hres := congrArg CrawlState.results hs
        simp only at hinf hq hv hres
        cases pre with
        | cons x xs =>
          exfalso
          rw [List.cons_append] at hinf
          have := congrArg List.tail hinf
          simp at this
        | nil =>
          rw [List.nil_append] at hinf
          obtain ⟨hps, hpost⟩ : (path, sec) = (p, s1) ∧ post = [] := by
            constructor
            · exact (List.cons.injEq _ _ _ _ ▸ hinf :
                (path, sec) = (p, s1) ∧ post = ([] : List (Str × Str))).1
            · exact (List.cons.injEq _ _ _ _ ▸ hinf :
                (path, sec) = (p, s1) ∧ post = ([] : List (Str × Str))).2
          obtain ⟨rfl, rfl⟩ : path = p ∧ sec = s1 :=
            ⟨congrArg Prod.fst hps, congrArg Prod.snd hps⟩
          rw [hf] at hf'
          obtain rfl : r = r' := Option.some.inj hf'
          subst hq hv hres hpost
          right; right; right; right
          simp [hd]
      · have hinf := congrArg CrawlState.inflight hs
        cases pre <;> simp_all
      · have hinf := congrArg CrawlState.inflight hs
        cases pre <;> simp_all
    | fetchFail path sec q visited pre post results hf' =>
      rcases ih with hs | hs | hs | hs | hs
      · have hinf := congrArg CrawlState.inflight hs
        cases pre <;> simp_all
      · have hinf := congrArg CrawlState.inflight hs
        simp only at hinf
        cases pre with
        | cons x xs =>
          exfalso
          rw [List.cons_append] at hinf
          have := congrArg List.tail hinf
          simp at this
        | nil =>
          exfalso
          rw [List.nil_append] at hinf
          have hps : (path, sec) = (p, s1) := by
            have := congrArg List.head? hinf
            simpa using this
          obtain ⟨rfl, rfl⟩ : path = p ∧ sec = s1 :=
            ⟨congrArg Prod.fst hps, congrArg Prod.snd hps⟩
          rw [hf] at hf'
          cases hf'
      · have hinf := congrArg CrawlState.inflight hs
        simp only at hinf
        cases pre with
        | cons x xs =>
          exfalso
          rw [List.cons_append] at hinf
          have := congrArg List.tail hinf
          simp at this
        | nil =>
          exfalso
          rw [List.nil_append] at hinf
          have hps : (path, sec) = (p, s1) := by
            have := congrArg List.head? hinf
            simpa using this
          obtain ⟨rfl, rfl⟩ : path = p ∧ sec = s1 :=
            ⟨congrArg Prod.fst hps, congrArg Prod.snd hps⟩
          rw [hf] at hf'
          cases hf'
      · have hinf := congrArg CrawlState.inflight hs
        cases pre <;> simp_all
      · have hinf := congrArg CrawlState.inflight hs
        cases pre <;> simp_all

/-- C9: in every reachable state of `crawlAll`, result paths are pairwise
distinct (a path is claimed in the visited set atomically before fetching),
and with two seed tasks for the same path any completed run holds exactly
one Crawl Result, tagged with the section of the first-dequeued task. -/
theorem C9_visited_dedup :
    (∀ (fetch : Str → Str → Option CrawlResult)
        (seeds : List (Str × Str)) (st : CrawlState),
        (∀ p sec r, fetch p sec = some r → r.path = p) →
        CrawlReachable fetch seeds st →
        (st.results.map (fun r => r.path)).Nodup)
    ∧ ∀ (fetch : Str → Str → Option CrawlResult) (p s1 s2 : Str)
        (r : CrawlResult),
        fetch p s1 = some r → r.discoveredPaths = [] →
        (∀ p' sec' r', fetch p' sec' = some r' → r'.«section» = sec') →
        ∀ st : CrawlState, CrawlReachable fetch [(p, s1), (p, s2)] st →
          st.queue = [] → st.inflight = [] →
          st.results = [r] ∧ r.«section» = s1 := by
  constructor
  · intro fetch seeds st hFetch hreach
    exact ((crawlReachable_inv hFetch seeds st hreach).1).of_append_left
  · intro fetch p s1 s2 r hf hd hsec st hreach hq hi
    have htag : r.«section» = s1 := hsec p s1 r hf
    rcases crawlScenario_states fetch p s1 s2 r hf hd st hreach with
      rfl | rfl | rfl | rfl | rfl
    · simp at hq
    · simp at hq
    · simp at hi
    · simp at hq
    · exact ⟨rfl, htag⟩

/-- Witness for C9: a concrete completed two-seed run of the step relation
ends with the single result claimed by the first-dequeued task. -/
theorem C9_witness :
    ((CrawlState.mk [] [seedPath] [] [resW]).results.map
        (fun r => r.path)).Nodup
    ∧ (CrawlState.mk [] [seedPath] [] [resW]).results = [resW]
    ∧ resW.«section» = sectionX := by
  have h0 : CrawlReachable fetchW [(seedPath, sectionX), (seedPath, sectionY)]
      ⟨[(seedPath, sectionX), (seedPath, sectionY)], [], [], []⟩ :=
    CrawlReachable.start
  have h1 := CrawlReachable.step h0
    (CrawlStep.claimTask seedPath sectionX [(seedPath, sectionY)] [] [] []
      (by simp))
  have h2 := CrawlReachable.step h1
    (CrawlStep.skipVisited seedPath sectionY [] [seedPath]
      [(seedPath, sectionX)] [] (by simp))
  have h3 := CrawlReachable.step h2
    (CrawlStep.fetchOk seedPath sectionX [] [seedPath] [] [] [] resW rfl)
  have hFetch : ∀ p' sec' r', fetchW p' sec' = some r' → r'.path = p' := by
    intro p' sec' r' h
    injection h with h2
    subst h2
    rfl
  have hSec : ∀ p' sec' r', fetchW p' sec' = some r' → r'.«section» = sec' := by
    intro p' sec' r' h
    injection h with h2
    subst h2
    rfl
  refine ⟨?_, ?_⟩
  · exact C9_visited_dedup.1 fetchW [(seedPath, sectionX), (seedPath, sectionY)]
      ⟨[], [seedPath], [], [resW]⟩ hFetch h3
  · exact C9_visited_dedup.2 fetchW seedPath sectionX sectionY resW rfl rfl hSec
      ⟨[], [seedPath], [], [resW]⟩ h3 rfl rfl

/-- Witness for the amended C3 at a concrete page. -/
theorem C3_amended_witness : ((chunkPage pageA).map (fun c => c.id)).Nodup :=
  C3_amended_ids_unique pageA

/-- Witness for C8 at a concrete href list. -/
theorem C8_witness :
    (discoverPaths
        [str "/docs/a?x=1", str "/docs/a", str "/docs/b#frag",
          str "other"]).Nodup
    ∧ docsLinkStr.isPrefixOf (str "/docs/a") ∧ '#' ∉ str "/docs/a"
      ∧ '?' ∉ str "/docs/a" :=
  ⟨(C8_discovered_paths
      [str "/docs/a?x=1", str "/docs/a", str "/docs/b#frag", str "other"]).1,
    (C8_discovered_paths
      [str "/docs/a?x=1", str "/docs/a", str "/docs/b#frag", str "other"]).2
      (str "/docs/a") (by decide)⟩
